import Mathlib

/-!
# Verification of `klusta/traces/waveform.py`

Shallow embedding of the waveform-extraction subsystem of the klusta
repository.  Amplitudes are modelled as rationals (`ℚ`), sample and channel
indices as naturals, absolute times as integers.  Fallible code paths
(`raise`, `assert`) are modelled with `Except`.

The embedding follows the source file `src/klusta/traces/waveform.py`:
* `_get_padded`            → `getPadded`
* `WaveformExtractor._component`           → `componentResolve`
* `WaveformExtractor._normalize`           → `normalize`
* `WaveformExtractor._comp_wave`           → `compWave`
* `WaveformExtractor.masks`                → `masksOf`
* `WaveformExtractor.spike_sample_aligned` → `spikeSampleAligned`
* `WaveformExtractor.align`                → `alignW`
* `WaveformLoader._load_at`                → `loadAt`
* `WaveformLoader.__getitem__`             → `getItem`
-/

namespace Klusta

/-- Source: `np.clip(x, 0, 1)` = `minimum(1, maximum(0, x))`. -/
def clip01 (x : ℚ) : ℚ := min 1 (max 0 x)

/-- Source: `WaveformExtractor._normalize`: `np.clip((x - tw) / (ts - tw), 0, 1)`
with `tw = thresholds['weak']`, `ts = thresholds['strong']`. -/
def normalize (tw ts x : ℚ) : ℚ := clip01 ((x - tw) / (ts - tw))

/-- The sample (first) coordinates of a component: `component[:, 0]`. -/
def compSamples (comp : List (ℕ × ℕ)) : List ℕ := comp.map Prod.fst

/-- The channel (second) coordinates of a component: `component[:, 1]`. -/
def compChannels (comp : List (ℕ × ℕ)) : List ℕ := comp.map Prod.snd

/-- Source: `comp_s.min()`: minimum of the sample coordinates (0 on the empty
component, where numpy would raise). -/
def sampMin (comp : List (ℕ × ℕ)) : ℕ :=
  match comp with
  | [] => 0
  | p :: ps => (ps.map Prod.fst).foldl min p.1

/-- Source: `comp_s.max()`: maximum of the sample coordinates. -/
def sampMax (comp : List (ℕ × ℕ)) : ℕ :=
  match comp with
  | [] => 0
  | p :: ps => (ps.map Prod.fst).foldl max p.1

/-- Source: `s_min = max(comp_s.min() - 3, 0)`; natural-number subtraction is
exactly the clipped integer subtraction. -/
def sMinOf (comp : List (ℕ × ℕ)) : ℕ := sampMin comp - 3

/-- Source: `s_max = min(comp_s.max() + 4, n_samples)`. -/
def sMaxOf (comp : List (ℕ × ℕ)) (nSamples : ℕ) : ℕ :=
  min (sampMax comp + 4) nSamples

/-- The `Bunch` produced by `WaveformExtractor._component`. -/
structure Bunch where
  comp_s : List ℕ
  comp_ch : List ℕ
  s_min : ℕ
  s_max : ℕ
  channels : List ℕ
  group : ℕ
deriving DecidableEq, Repr

/-- Errors raised while resolving a component: the `RuntimeError` for a dead
channel, the `assert s_min < s_max` failure, and the numpy `IndexError` on an
empty component (`comp_ch[0]`). -/
inductive CompErr where
  | deadChannel (ch : ℕ)
  | assertFail
  | emptyComponent
deriving DecidableEq, Repr

/-- The channel-group topology: association list of (group id, ordered member
channels), mirroring the `channels_per_group` dict. -/
abbrev Topology := List (ℕ × List ℕ)

/-- Lookup in `_dep_channels` / `_channel_groups`.  Both dicts are built by a
comprehension iterating the groups in order; a later group containing the
channel overwrites an earlier one, hence the search over the reversed list. -/
def findGroup (cpg : Topology) (ch : ℕ) : Option (ℕ × List ℕ) :=
  cpg.reverse.find? (fun p => ch ∈ p.2)

/-- Source: `WaveformExtractor._component`: look up the group of the component's
first channel (raising for a dead channel), compute the clipped time window
`[s_min, s_max)` and assert `s_min < s_max`. -/
def componentResolve (cpg : Topology) (comp : List (ℕ × ℕ))
    (nSamples : ℕ) : Except CompErr Bunch :=
  match comp with
  | [] => .error .emptyComponent
  | p :: _ =>
    match findGroup cpg p.2 with
    | none => .error (.deadChannel p.2)
    | some gc =>
      let sMin := sMinOf comp
      let sMax := sMaxOf comp nSamples
      if sMin < sMax then
        .ok ⟨compSamples comp, compChannels comp, sMin, sMax, gc.2, gc.1⟩
      else .error .assertFail

/-- Source: `WaveformExtractor._comp_wave`: the sparse component waveform, indexed by
(relative sample `i`, channel `c`):
`wave[comp_s - s_min, comp_ch] = data_t[comp_s, comp_ch]`, zero elsewhere. -/
def compWave (dataT : ℕ → ℕ → ℚ) (comp : List (ℕ × ℕ)) (sMin : ℕ)
    (i c : ℕ) : ℚ :=
  if (i + sMin, c) ∈ comp then dataT (i + sMin) c else 0

/-- Source: `np.argmax(wave[:, c])`: index of the first occurrence of the maximum of
column `c` among relative samples `0, …, n-1`. -/
def argmaxAux (f : ℕ → ℚ) : List ℕ → ℕ → ℕ
  | [], best => best
  | r :: rs, best => argmaxAux f rs (if f best < f r then r else best)

/-- Source: `peaks[c] = np.argmax(wave, axis=0)[c]` (first maximal index). -/
def argmaxCol (wave : ℕ → ℕ → ℚ) (n c : ℕ) : ℕ :=
  argmaxAux (fun r => wave r c) (List.range n) 0

/-- Source: `peaks_values[c] = data_t[peaks[c], c] * masks_bin[c]` where
`masks_bin[c] = 1` iff channel `c` is touched by the component. -/
def peaksValue (dataT : ℕ → ℕ → ℚ) (wave : ℕ → ℕ → ℚ) (compCh : List ℕ)
    (sMin n c : ℕ) : ℚ :=
  dataT (argmaxCol wave n c + sMin) c * (if c ∈ compCh then 1 else 0)

/-- Source: `WaveformExtractor.masks`: `self._normalize(peaks_values)[channels]`. -/
def masksOf (tw ts : ℚ) (dataT : ℕ → ℕ → ℚ) (wave : ℕ → ℕ → ℚ)
    (compCh : List ℕ) (sMin n : ℕ) (channels : List ℕ) : List ℚ :=
  channels.map (fun c => normalize tw ts (peaksValue dataT wave compCh sMin n c))

/-- One weight of `spike_sample_aligned`:
`wave_n_p[i, c] = self._normalize(wave)[i, c] ** weight_power`.
The exponent (`weight_power`, a float in the source, default `1.`) is
modelled as a natural number. -/
def spikeW (tw ts : ℚ) (p : ℕ) (wave : ℕ → ℕ → ℚ) (i c : ℕ) : ℚ :=
  (normalize tw ts (wave i c)) ^ p

/-- Source: `np.sum(wave_n_p)` over the whole `(n, nc)` window. -/
def spikeDen (tw ts : ℚ) (p : ℕ) (wave : ℕ → ℕ → ℚ) (n nc : ℕ) : ℚ :=
  ∑ i in Finset.range n, ∑ c in Finset.range nc, spikeW tw ts p wave i c

/-- Source: `np.sum(wave_n_p * u)` with `u = np.arange(s_max - s_min)[:, np.newaxis]`:
broadcasting multiplies every row `i` by `i`. -/
def spikeNum (tw ts : ℚ) (p : ℕ) (wave : ℕ → ℕ → ℚ) (n nc : ℕ) : ℚ :=
  ∑ i in Finset.range n, ∑ c in Finset.range nc, spikeW tw ts p wave i c * i

/-- Source: `WaveformExtractor.spike_sample_aligned`:
`np.sum(wave_n_p * u) / np.sum(wave_n_p) + s_min`. -/
def spikeSampleAligned (tw ts : ℚ) (p : ℕ) (wave : ℕ → ℕ → ℚ)
    (sMin sMax nc : ℕ) : ℚ :=
  spikeNum tw ts p wave (sMax - sMin) nc / spikeDen tw ts p wave (sMax - sMin) nc
    + sMin

/-- Python `int()` applied to a rational: truncation toward zero
(`Int.tdiv` is T-division). -/
def ratTrunc (q : ℚ) : ℤ := q.num.tdiv q.den

/-- Source: `WaveformExtractor.align`.  The cubic interpolation itself is performed
by the external library call `scipy.interpolate.interp1d(old_s, waveform,
kind='cubic', axis=0)`; its per-point evaluation is abstracted by the
parameter `evalRow` (one output row per queried grid point).  Modelled from
the spec: the library call raises the caught `ValueError` exactly when the
support grid is degenerate — fewer than the 4 points a cubic needs, or a
length mismatch between grid and data; `old_s = np.arange(s-sb-1, s+sa+2)`
is always strictly increasing, so non-monotonicity cannot occur here.
Returns the output rows together with the integer sample time logged by the
warning on the failure path (`none` when no warning is logged). -/
def alignW (sb sa : ℕ) (evalRow : ℚ → List ℚ) (waveform : List (List ℚ))
    (sAligned : ℚ) : List (List ℚ) × Option ℤ :=
  let s := ratTrunc sAligned
  -- old_s = np.arange(s - sb - 1, s + sa + 2), of length sb + sa + 3
  let oldLen := sb + sa + 3
  -- new_s = np.arange(s - sb, s + sa) + (s_aligned - s)
  let newS := (List.range (sb + sa)).map
    (fun (k : ℕ) => ((s - sb + (k : ℤ) : ℤ) : ℚ) + (sAligned - s))
  if waveform.length = oldLen ∧ 4 ≤ oldLen then (newS.map evalRow, none)
  else (waveform, some s)

/-- Python slice-index resolution for a step-1 slice over `n` rows: a
negative index counts from the end; the result is clamped to `[0, n]`. -/
def pyIdx (n : ℕ) (i : ℤ) : ℕ := (if i < 0 then max (i + n) 0 else min i n).toNat

/-- Python `data[a:b]` on the row axis. -/
def pySliceRows (l : List (List ℚ)) (a b : ℤ) : List (List ℚ) :=
  (l.take (pyIdx l.length b)).drop (pyIdx l.length a)

/-- The `RuntimeError` raised by `_get_padded`. -/
inductive PadErr where
  | bothInvalid
deriving DecidableEq, Repr

/-- Source: `_get_padded(data, start, end)`; `w` is the array width `data.shape[1]`.
Note the guard is `start < 0 and end >= data.shape[0]` (with `>=`, not the
`>` of the docstring). -/
def getPadded (w : ℕ) (data : List (List ℚ)) (start e : ℤ) :
    Except PadErr (List (List ℚ)) :=
  if start < 0 ∧ (data.length : ℤ) ≤ e then .error .bothInvalid
  else if start < 0 then
    -- np.vstack((np.zeros((-start, w)), data[:end]))
    .ok (List.replicate (-start).toNat (List.replicate w 0) ++
         pySliceRows data 0 e)
  else if (data.length : ℤ) < e then
    -- np.vstack((data[start:], np.zeros((end - len(data), w))))
    .ok (pySliceRows data start data.length ++
         List.replicate (e - data.length).toNat (List.replicate w 0))
  else
    .ok (pySliceRows data start e)

/-! ## WaveformLoader -/

/-- Errors escaping `WaveformLoader._load_at` / `__getitem__`:
the `ValueError` for an out-of-range time (carrying the offset-translated
time and the trace length that appear in its message), an `assert` failure,
and the `AttributeError` from reading `n_channels_traces` before any traces
were set. -/
inductive LoadErr where
  | invalidTime (timeO : ℤ) (ns : ℕ)
  | assertError
  | attrError
deriving DecidableEq, Repr

/-- State of a `WaveformLoader`.  `nChannelsTraces` is `none` until the
`traces` setter first runs (the Python attribute does not exist before
that); `nSamplesTrace` is initialized to `0` in the constructor. -/
structure WaveformLoaderS where
  traces : List (List ℚ)
  nSamplesTrace : ℕ
  nChannelsTraces : Option ℕ
  offset : ℤ
  filter : Option (List (List ℚ) → List (List ℚ))
  marginBefore : ℕ
  marginAfter : ℕ
  nsBefore : ℕ
  nsAfter : ℕ
  channels : Option (List ℕ)
  scaleFactor : Option ℚ
  dcOffset : Option ℚ

/-- Source: `n_samples_waveforms = sum(n_samples_before_after)`. -/
def nSamplesWaveforms (L : WaveformLoaderS) : ℕ := L.nsBefore + L.nsAfter

/-- Source: `_n_samples_extract = n_samples_waveforms + sum(filter_margin)`. -/
def nSamplesExtract (L : WaveformLoaderS) : ℕ :=
  nSamplesWaveforms L + (L.marginBefore + L.marginAfter)

/-- Source: `n_channels_waveforms`: `len(channels)` when a subset is configured,
otherwise `n_channels_traces` — an `AttributeError` when the traces were
never set. -/
def nChannelsWaveforms (L : WaveformLoaderS) : Except LoadErr ℕ :=
  match L.channels with
  | some chs => .ok chs.length
  | none =>
    match L.nChannelsTraces with
    | some nc => .ok nc
    | none => .error .attrError

/-- Source: `data[a:b]` for nonnegative resolved indices. -/
def listSlice (l : List (List ℚ)) (a b : ℕ) : List (List ℚ) :=
  (l.take b).drop a

/-- Modelled from the spec: `_pad(arr, n, side)`, from this repository's
`utils` module, which is not included under `src/`.  Per the spec, the
padded chunk has exactly `n` rows: zero rows (of width `w`) are added on the
given side when the input is shorter, and rows are dropped from that side
when it is longer. -/
def padTo (w : ℕ) (arr : List (List ℚ)) (n : ℕ) (left : Bool) :
    List (List ℚ) :=
  if arr.length ≤ n then
    if left then List.replicate (n - arr.length) (List.replicate w 0) ++ arr
    else arr ++ List.replicate (n - arr.length) (List.replicate w 0)
  else
    if left then arr.drop (arr.length - n) else arr.take n

/-- The final `assert _[out].shape == (n_samples_waveforms,
n_channels_waveforms)` of `_load_at`. -/
def checkShape (nsw ncw : ℕ) (out : List (List ℚ)) :
    Except LoadErr (List (List ℚ)) :=
  if out.length = nsw ∧ out.all (fun row => row.length = ncw) then .ok out
  else .error .assertError

/-- The chunk-extraction stage of `WaveformLoader._load_at`: the slice
`_slice(time_o, n_samples_before_after, filter_margin)` of the traces,
zero-padded with `_pad` when the slice touches the start (`start <= 0`) or
the end (`stop >= n_samples_trace - 1`) of the buffer. -/
def loadExtract (L : WaveformLoaderS) (timeO : ℤ) : List (List ℚ) :=
  let before : ℤ := L.nsBefore + L.marginBefore
  let after : ℤ := L.nsAfter + L.marginAfter
  let start : ℤ := max 0 (timeO - before)
  let stop : ℤ := timeO + after
  let extract := listSlice L.traces start.toNat stop.toNat
  let w := L.nChannelsTraces.getD 0
  if start ≤ 0 then padTo w extract (nSamplesExtract L) true
  else if (L.nSamplesTrace : ℤ) - 1 ≤ stop then
    padTo w extract (nSamplesExtract L) false
  else extract

/-- The filtering/trimming/subsetting stage of `WaveformLoader._load_at`:
apply the optional filter, remove the filter margin
(`waveforms[margin_before:-margin_after, :]`, only when `margin_after > 0`),
apply the optional channel subset (fancy indexing, modelled with a
defaulting lookup — the claims under verification only involve in-range
channel subsets), and check the final shape assertion. -/
def loadPost (L : WaveformLoaderS) (extract : List (List ℚ)) :
    Except LoadErr (List (List ℚ)) :=
  let wv := match L.filter with
    | some f => f extract
    | none => extract
  let wv := if 0 < L.marginAfter then
      (wv.take (wv.length - L.marginAfter)).drop L.marginBefore
    else wv
  let out := match L.channels with
    | some chs => wv.map (fun row => chs.map (fun c => row.getD c 0))
    | none => wv
  match nChannelsWaveforms L with
  | .error err => .error err
  | .ok ncw => checkShape (nSamplesWaveforms L) ncw out

/-- Source: `WaveformLoader._load_at(time)`: reject an out-of-range
offset-translated time with the `Invalid time` `ValueError`, extract the
padded chunk, check `assert extract.shape[0] == self._n_samples_extract`,
and run the filtering/trimming/subsetting stage. -/
def loadAt (L : WaveformLoaderS) (t : ℤ) : Except LoadErr (List (List ℚ)) :=
  let timeO := t - L.offset
  if timeO < 0 ∨ (L.nSamplesTrace : ℤ) ≤ timeO then
    .error (.invalidTime timeO L.nSamplesTrace)
  else if (loadExtract L timeO).length = nSamplesExtract L then
    loadPost L (loadExtract L timeO)
  else .error .assertError

/-- Source: `np.zeros((r, c))`. -/
def zeroMat (r c : ℕ) : List (List ℚ) :=
  List.replicate r (List.replicate c 0)

/-- One slot of the `np.empty(shape)` batch array: shape `(nsw, ncw)` with
unspecified contents `junk`. -/
def junkMat (nsw ncw : ℕ) (junk : ℕ → ℕ → ℚ) : List (List ℚ) :=
  (List.range nsw).map (fun r => (List.range ncw).map (fun c => junk r c))

/-- The loading loop of `__getitem__`: slot `i` takes `_load_at(time)` when
it succeeds; an `Invalid time` `ValueError` is caught, a warning recording
the offending time is logged, and the slot keeps the `np.empty` garbage
(`junk i`); any other exception aborts the whole batch.  Returns the slots
together with the list of logged warning times, in loop order. -/
def loadSlots (L : WaveformLoaderS) (junk : ℕ → ℕ → ℕ → ℚ) (nsw ncw : ℕ) :
    ℕ → List ℤ → Except LoadErr (List (List (List ℚ)) × List ℤ)
  | _, [] => .ok ([], [])
  | i, t :: rest =>
    match loadAt L t with
    | .ok wv =>
      match loadSlots L junk nsw ncw (i + 1) rest with
      | .ok (ws, warns) => .ok (wv :: ws, warns)
      | .error err => .error err
    | .error (.invalidTime timeO _) =>
      match loadSlots L junk nsw ncw (i + 1) rest with
      | .ok (ws, warns) => .ok (junkMat nsw ncw (junk i) :: ws, timeO :: warns)
      | .error err => .error err
    | .error err => .error err

/-- The per-batch post-processing of `__getitem__` applied to one slot:
`waveforms -= dc_offset` then `waveforms *= scale_factor`, each only when
the configured value is truthy (not `None`, not `0`). -/
def postprocMat (L : WaveformLoaderS) (m : List (List ℚ)) : List (List ℚ) :=
  let d := L.dcOffset.getD 0
  let m := if d ≠ 0 then m.map (fun row => row.map (fun x => x - d)) else m
  let s := L.scaleFactor.getD 0
  if s ≠ 0 then m.map (fun row => row.map (fun x => x * s)) else m

/-- Result of a batch load: the waveform array and the times whose slots
failed with a logged `Invalid time` warning. -/
structure LoadResult where
  waveforms : List (List (List ℚ))
  warnings : List ℤ
deriving DecidableEq

/-- Source: `WaveformLoader.__getitem__` on a list of requested times.  The shape
tuple is computed first (possibly raising the `AttributeError` of
`n_channels_waveforms`); with no traces an all-zero batch is returned;
otherwise the loading loop runs and the dc-offset/scale post-processing is
applied to the whole batch, junk slots included. -/
def getItem (L : WaveformLoaderS) (junk : ℕ → ℕ → ℕ → ℚ)
    (times : List ℤ) : Except LoadErr LoadResult :=
  match nChannelsWaveforms L with
  | .error err => .error err
  | .ok ncw =>
    let nsw := nSamplesWaveforms L
    if L.nSamplesTrace = 0 then
      .ok ⟨times.map (fun _ => zeroMat nsw ncw), []⟩
    else
      match loadSlots L junk nsw ncw 0 times with
      | .error err => .error err
      | .ok (ws, warns) => .ok ⟨ws.map (postprocMat L), warns⟩

/-- Decidable equality for `Except`, used to evaluate the embedding at
concrete inputs. -/
instance {ε α : Type} [DecidableEq ε] [DecidableEq α] :
    DecidableEq (Except ε α) := fun a b =>
  match a, b with
  | .ok x, .ok y =>
    if h : x = y then isTrue (by rw [h])
    else isFalse (fun hc => by cases hc; exact h rfl)
  | .error x, .error y =>
    if h : x = y then isTrue (by rw [h])
    else isFalse (fun hc => by cases hc; exact h rfl)
  | .ok _, .error _ => isFalse (fun hc => by cases hc)
  | .error _, .ok _ => isFalse (fun hc => by cases hc)

/-- Whether an `Except` computation succeeded. -/
def isOkE {ε α : Type} (e : Except ε α) : Bool :=
  match e with
  | .ok _ => true
  | .error _ => false

/-- The amplitude-weighted temporal centroid exactly as the specification
words it: with `w = clip((wave − weak) / (strong − weak), 0, 1)` raised
element-wise to the power `weight_power`, the sum over all (sample, channel)
pairs of the window of `w · sample_index`, divided by the sum of `w`, plus
the window start `s_min`.  Written from the spec's words, to be compared
with the source-translated `spikeSampleAligned`. -/
def centroidSpec (tw ts : ℚ) (p : ℕ) (wave : ℕ → ℕ → ℚ)
    (sMin sMax nc : ℕ) : ℚ :=
  let w : ℕ × ℕ → ℚ := fun ic => (clip01 ((wave ic.1 ic.2 - tw) / (ts - tw))) ^ p
  (∑ ic in Finset.range (sMax - sMin) ×ˢ Finset.range nc, w ic * ic.1) /
    (∑ ic in Finset.range (sMax - sMin) ×ˢ Finset.range nc, w ic) + sMin

/-! ## Helper lemmas -/

theorem clip01_nonneg (x : ℚ) : 0 ≤ clip01 x :=
  le_min one_pos.le (le_max_left 0 x)

theorem clip01_le_one (x : ℚ) : clip01 x ≤ 1 :=
  min_le_left 1 _

theorem clip01_eq_one {x : ℚ} (h : 1 ≤ x) : clip01 x = 1 :=
  min_eq_left (le_trans h (le_max_right 0 x))

theorem clip01_eq_zero {x : ℚ} (h : x ≤ 0) : clip01 x = 0 := by
  unfold clip01
  rw [max_eq_left h, min_eq_right zero_le_one]

theorem clip01_pos {x : ℚ} (h : 0 < x) : 0 < clip01 x :=
  lt_min one_pos (lt_of_lt_of_le h (le_max_right 0 x))

theorem normalize_nonneg (tw ts x : ℚ) : 0 ≤ normalize tw ts x :=
  clip01_nonneg _

theorem normalize_le_one (tw ts x : ℚ) : normalize tw ts x ≤ 1 :=
  clip01_le_one _

theorem normalize_eq_one {tw ts x : ℚ} (h : tw < ts) (hx : ts ≤ x) :
    normalize tw ts x = 1 := by
  apply clip01_eq_one
  rw [le_div_iff₀ (by linarith : (0:ℚ) < ts - tw)]
  linarith

theorem normalize_eq_zero {tw ts x : ℚ} (h : tw < ts) (hx : x ≤ tw) :
    normalize tw ts x = 0 := by
  apply clip01_eq_zero
  apply div_nonpos_of_nonpos_of_nonneg (by linarith) (by linarith)

theorem normalize_pos {tw ts x : ℚ} (h : tw < ts) (hx : tw < x) :
    0 < normalize tw ts x :=
  clip01_pos (div_pos (by linarith) (by linarith))

theorem foldl_min_le_init (l : List ℕ) (b : ℕ) : l.foldl min b ≤ b := by
  induction l generalizing b with
  | nil => exact le_refl b
  | cons a l ih =>
    simp only [List.foldl_cons]
    exact le_trans (ih (min b a)) (min_le_left b a)

theorem foldl_min_le_mem {l : List ℕ} {x : ℕ} (hx : x ∈ l) (b : ℕ) :
    l.foldl min b ≤ x := by
  induction l generalizing b with
  | nil => cases hx
  | cons a l ih =>
    simp only [List.foldl_cons]
    rcases List.mem_cons.1 hx with h | h
    · subst h
      exact le_trans (foldl_min_le_init l (min b x)) (min_le_right b x)
    · exact ih h (min b a)

theorem init_le_foldl_max (l : List ℕ) (b : ℕ) : b ≤ l.foldl max b := by
  induction l generalizing b with
  | nil => exact le_refl b
  | cons a l ih =>
    simp only [List.foldl_cons]
    exact le_trans (le_max_left b a) (ih (max b a))

theorem mem_le_foldl_max {l : List ℕ} {x : ℕ} (hx : x ∈ l) (b : ℕ) :
    x ≤ l.foldl max b := by
  induction l generalizing b with
  | nil => cases hx
  | cons a l ih =>
    simp only [List.foldl_cons]
    rcases List.mem_cons.1 hx with h | h
    · subst h
      exact le_trans (le_max_right b x) (init_le_foldl_max l (max b x))
    · exact ih h (max b a)

theorem foldl_max_mem (l : List ℕ) (b : ℕ) :
    l.foldl max b = b ∨ l.foldl max b ∈ l := by
  induction l generalizing b with
  | nil => exact Or.inl rfl
  | cons a l ih =>
    simp only [List.foldl_cons]
    rcases ih (max b a) with h | h
    · rcases max_cases b a with ⟨he, _⟩ | ⟨he, _⟩
      · exact Or.inl (h.trans he)
      · exact Or.inr (by rw [h, he]; exact List.mem_cons_self a l)
    · exact Or.inr (List.mem_cons_of_mem a h)

theorem sampMin_le {comp : List (ℕ × ℕ)} {p : ℕ × ℕ} (hp : p ∈ comp) :
    sampMin comp ≤ p.1 := by
  match comp with
  | [] => cases hp
  | q :: ps =>
    unfold sampMin
    rcases List.mem_cons.1 hp with h | h
    · subst h
      exact foldl_min_le_init _ _
    · exact foldl_min_le_mem (List.mem_map_of_mem Prod.fst h) q.1

theorem le_sampMax {comp : List (ℕ × ℕ)} {p : ℕ × ℕ} (hp : p ∈ comp) :
    p.1 ≤ sampMax comp := by
  match comp with
  | [] => cases hp
  | q :: ps =>
    unfold sampMax
    rcases List.mem_cons.1 hp with h | h
    · subst h
      exact init_le_foldl_max _ _
    · exact mem_le_foldl_max (List.mem_map_of_mem Prod.fst h) q.1

theorem sampMax_attained {comp : List (ℕ × ℕ)} (hne : comp ≠ []) :
    ∃ p ∈ comp, p.1 = sampMax comp := by
  match comp with
  | [] => exact absurd rfl hne
  | q :: ps =>
    unfold sampMax
    rcases foldl_max_mem (ps.map Prod.fst) q.1 with h | h
    · exact ⟨q, List.mem_cons_self q ps, h.symm⟩
    · obtain ⟨p, hp, hp1⟩ := List.mem_map.1 h
      exact ⟨p, List.mem_cons_of_mem q hp, hp1⟩

theorem argmaxAux_le (f : ℕ → ℚ) (l : List ℕ) (b : ℕ) :
    f b ≤ f (argmaxAux f l b) ∧ ∀ x ∈ l, f x ≤ f (argmaxAux f l b) := by
  induction l generalizing b with
  | nil => exact ⟨le_refl _, fun x hx => absurd hx (List.not_mem_nil x)⟩
  | cons a l ih =>
    simp only [argmaxAux]
    constructor
    · by_cases h : f b < f a
      · rw [if_pos h]
        exact le_trans h.le (ih a).1
      · rw [if_neg h]
        exact (ih b).1
    · intro x hx
      rcases List.mem_cons.1 hx with hxa | hxl
      · subst hxa
        by_cases h : f b < f x
        · rw [if_pos h]
          exact (ih x).1
        · rw [if_neg h]
          exact le_trans (not_lt.1 h) (ih b).1
      · by_cases h : f b < f a
        · rw [if_pos h]
          exact (ih a).2 x hxl
        · rw [if_neg h]
          exact (ih b).2 x hxl

theorem argmaxCol_le (wave : ℕ → ℕ → ℚ) (n c : ℕ) {i : ℕ} (hi : i < n) :
    wave i c ≤ wave (argmaxCol wave n c) c :=
  (argmaxAux_le (fun r => wave r c) (List.range n) 0).2 i (List.mem_range.2 hi)

theorem map_eq_replicate_one {l : List ℕ} {f : ℕ → ℚ}
    (h : ∀ c ∈ l, f c = 1) : l.map f = List.replicate l.length 1 := by
  induction l with
  | nil => rfl
  | cons a l ih =>
    simp only [List.map_cons, List.length_cons, List.replicate_succ]
    rw [h a (List.mem_cons_self a l), ih (fun c hc => h c (List.mem_cons_of_mem a hc))]

/-! ## Claims -/

/-- C6.  The padding utility `_get_padded` contradicts its own contract at
`start = -1`, `end = len(data) = 2` on the 2×1 array `[[0], [1]]`: only the
start bound is out of range (`start < 0` holds, `end > length` does not),
so by the claim (and the function's docstring) the call should return the
zero-padded 3-row array, but the guard tests `end >= len(data)` and raises
`RuntimeError`. -/
theorem C6_get_padded_guard_bug :
    ((-1 : ℤ) < 0 ∧ ¬((2 : ℤ) < 2)) ∧
    getPadded 1 [[0], [1]] (-1) 2 = .error .bothInvalid := by
  constructor
  · exact ⟨by norm_num, by norm_num⟩
  · rfl

/-- C4, counterexample.  A component whose *second* pair lies on channel 1,
absent from the topology `{0: [0]}` (so channel 1 is dead), is resolved
without any error: `_component` checks only the first encountered channel,
so the claim "for every component containing any pair whose channel is
absent … resolving fails" is false. -/
theorem C4_counterexample :
    findGroup [(0, [0])] 1 = none ∧
    componentResolve [(0, [0])] [(5, 0), (5, 1)] 20 =
      .ok ⟨[5, 5], [0, 1], 2, 9, [0], 0⟩ := by
  constructor
  · rfl
  · rfl

/-- C4, amended.  For every component whose *first* pair's channel is absent
from the channel-group topology, resolving the component fails with the
dead-channel error; later channels of the component are not checked. -/
theorem C4_dead_channel (cpg : Topology) (comp : List (ℕ × ℕ)) (n : ℕ)
    (p : ℕ × ℕ) (rest : List (ℕ × ℕ)) (hc : comp = p :: rest)
    (hdead : findGroup cpg p.2 = none) :
    componentResolve cpg comp n = .error (.deadChannel p.2) := by
  subst hc
  simp only [componentResolve, hdead]

/-- Witness for C4: a concrete dead first channel is rejected. -/
theorem C4_dead_channel_witness :
    componentResolve [(0, [0])] [(5, 1)] 20 = .error (.deadChannel 1) :=
  C4_dead_channel [(0, [0])] [(5, 1)] 20 (5, 1) [] rfl rfl

/-- C5.  For every component with samples in `[0, n_samples)` (and a live
first channel, so that resolution reaches the window computation), the time
window is `s_min = max(min(comp samples) − 3, 0)`,
`s_max = min(max(comp samples) + 4, n_samples)`, the invariant
`s_min < s_max` holds, and `_component` succeeds with exactly this window. -/
theorem C5_window (cpg : Topology) (comp : List (ℕ × ℕ)) (n : ℕ)
    (p : ℕ × ℕ) (rest : List (ℕ × ℕ)) (gc : ℕ × List ℕ)
    (hc : comp = p :: rest) (hg : findGroup cpg p.2 = some gc)
    (hin : ∀ q ∈ comp, q.1 < n) :
    (sMinOf comp : ℤ) = max ((sampMin comp : ℤ) - 3) 0 ∧
    (sMaxOf comp n : ℤ) = min ((sampMax comp : ℤ) + 4) (n : ℤ) ∧
    sMinOf comp < sMaxOf comp n ∧
    componentResolve cpg comp n =
      .ok ⟨compSamples comp, compChannels comp, sMinOf comp, sMaxOf comp n,
           gc.2, gc.1⟩ := by
  subst hc
  have hpmem : p ∈ p :: rest := List.mem_cons_self p rest
  have h1 : sampMin (p :: rest) ≤ sampMax (p :: rest) :=
    le_trans (sampMin_le hpmem) (le_sampMax hpmem)
  have h2 : sampMax (p :: rest) < n := by
    obtain ⟨q, hq, he⟩ := sampMax_attained (List.cons_ne_nil p rest)
    rw [← he]
    exact hin q hq
  have hmin : (sMinOf (p :: rest) : ℤ) = max ((sampMin (p :: rest) : ℤ) - 3) 0 := by
    unfold sMinOf; omega
  have hmax : (sMaxOf (p :: rest) n : ℤ) =
      min ((sampMax (p :: rest) : ℤ) + 4) (n : ℤ) := by
    unfold sMaxOf; omega
  have hlt : sMinOf (p :: rest) < sMaxOf (p :: rest) n := by
    unfold sMinOf sMaxOf; omega
  refine ⟨hmin, hmax, hlt, ?_⟩
  simp only [componentResolve, hg]
  rw [if_pos hlt]

/-- Witness for C5: the concrete component `[(5, 0)]` on topology
`{0: [0]}` with 10 trace samples gives the window `[2, 9)`. -/
theorem C5_window_witness :
    (sMinOf [(5, 0)] : ℤ) = max ((sampMin [(5, 0)] : ℤ) - 3) 0 ∧
    (sMaxOf [(5, 0)] 10 : ℤ) = min ((sampMax [(5, 0)] : ℤ) + 4) (10 : ℤ) ∧
    sMinOf [(5, 0)] < sMaxOf [(5, 0)] 10 ∧
    componentResolve [(0, [0])] [(5, 0)] 10 =
      .ok ⟨compSamples [(5, 0)], compChannels [(5, 0)], sMinOf [(5, 0)],
           sMaxOf [(5, 0)] 10, [0], 0⟩ :=
  C5_window [(0, [0])] [(5, 0)] 10 (5, 0) [] (0, [0]) rfl rfl (by decide)

/-- C1.  `spike_sample_aligned`, applied to the sparse component waveform
built by `_comp_wave`, equals the amplitude-weighted temporal centroid as
the spec words it: with `w = clip((wave − weak)/(strong − weak), 0, 1)`
raised element-wise to `weight_power`, the result is the sum over all
(sample, channel) pairs of `w·sample_index` divided by the sum of `w`,
plus the window start `s_min`. -/
theorem C1_aligned_time_is_centroid (tw ts : ℚ) (p : ℕ)
    (dataT : ℕ → ℕ → ℚ) (comp : List (ℕ × ℕ)) (nSamples nc : ℕ) :
    spikeSampleAligned tw ts p (compWave dataT comp (sMinOf comp))
        (sMinOf comp) (sMaxOf comp nSamples) nc =
      centroidSpec tw ts p (compWave dataT comp (sMinOf comp))
        (sMinOf comp) (sMaxOf comp nSamples) nc := by
  unfold spikeSampleAligned centroidSpec spikeNum spikeDen spikeW normalize
  simp only [Finset.sum_product]

/-- C9.  Every value of the mask returned by `masks` lies in the closed
interval `[0, 1]`, for every component, waveform, and threshold pair with
`weak < strong`: normalization clips `(x − weak)/(strong − weak)` to
`[0, 1]`. -/
theorem C9_mask_in_unit_interval (tw ts : ℚ) (dataT wave : ℕ → ℕ → ℚ)
    (compCh : List ℕ) (sMin n : ℕ) (channels : List ℕ)
    (_h : tw < ts) :
    ∀ m ∈ masksOf tw ts dataT wave compCh sMin n channels, 0 ≤ m ∧ m ≤ 1 := by
  intro m hm
  obtain ⟨c, _, rfl⟩ := List.mem_map.1 hm
  exact ⟨normalize_nonneg _ _ _, normalize_le_one _ _ _⟩

/-- Witness for C9: the mask value of channel 0 of a concrete component
lies in `[0, 1]`. -/
theorem C9_mask_in_unit_interval_witness :
    0 ≤ normalize 1 2 (peaksValue (fun _ _ => 3)
          (compWave (fun _ _ => 3) [(5, 0)] 2) [0] 2 7 0) ∧
    normalize 1 2 (peaksValue (fun _ _ => 3)
          (compWave (fun _ _ => 3) [(5, 0)] 2) [0] 2 7 0) ≤ 1 :=
  C9_mask_in_unit_interval 1 2 (fun _ _ => 3)
    (compWave (fun _ _ => 3) [(5, 0)] 2) [0] 2 7 [0] (by norm_num)
    _ (List.mem_map_of_mem _ (List.mem_singleton.2 rfl))

/-- C3, counterexample.  With `extract_before = extract_after = 0` the
support grid has 3 < 4 points, so interpolation fails; `align` logs the
warning and returns the unaligned extracted window — which has 3 rows, not
`extract_before + extract_after = 0`: the claimed output length does not
hold on the interpolation-failure path. -/
theorem C3_counterexample :
    (alignW 0 0 (fun _ => [0]) [[0], [0], [0]] 5).2 = some 5 ∧
    (alignW 0 0 (fun _ => [0]) [[0], [0], [0]] 5).1.length ≠ 0 + 0 := by
  constructor
  · rfl
  · intro h
    simp [alignW, ratTrunc] at h

/-- C3, amended.  For every window and aligned time, `align` returns exactly
`extract_before + extract_after` samples on the successful interpolation
path (window length matching the `extract_before + extract_after + 3`-point
support grid, at least 4 support points) and logs no warning; on the
interpolation-failure path it logs a warning identifying the truncated
integer sample time and returns the unaligned window unchanged — with its
input length, not `extract_before + extract_after`. -/
theorem C3_align_output (sb sa : ℕ) (evalRow : ℚ → List ℚ)
    (wf : List (List ℚ)) (q : ℚ) :
    (wf.length = sb + sa + 3 ∧ 1 ≤ sb + sa →
      (alignW sb sa evalRow wf q).1.length = sb + sa ∧
      (alignW sb sa evalRow wf q).2 = none) ∧
    (¬(wf.length = sb + sa + 3 ∧ 1 ≤ sb + sa) →
      (alignW sb sa evalRow wf q).1 = wf ∧
      (alignW sb sa evalRow wf q).2 = some (ratTrunc q)) := by
  have hiff : (wf.length = sb + sa + 3 ∧ 4 ≤ sb + sa + 3) ↔
      (wf.length = sb + sa + 3 ∧ 1 ≤ sb + sa) := by
    constructor
    · rintro ⟨h1, h2⟩; exact ⟨h1, by omega⟩
    · rintro ⟨h1, h2⟩; exact ⟨h1, by omega⟩
  constructor
  · intro h
    unfold alignW
    rw [if_pos (hiff.2 h)]
    refine ⟨?_, rfl⟩
    rw [List.length_map, List.length_map, List.length_range]
  · intro h
    unfold alignW
    rw [if_neg (fun hc => h (hiff.1 hc))]
    exact ⟨rfl, rfl⟩

/-- Witness for C3: a successful interpolation with
`extract_before = 2, extract_after = 3` on an 8-row window yields 5 output
samples and no warning. -/
theorem C3_align_output_witness :
    (alignW 2 3 (fun _ => []) [[0], [0], [0], [0], [0], [0], [0], [0]] 5).1.length
      = 2 + 3 ∧
    (alignW 2 3 (fun _ => []) [[0], [0], [0], [0], [0], [0], [0], [0]] 5).2
      = none :=
  (C3_align_output 2 3 (fun _ => []) [[0], [0], [0], [0], [0], [0], [0], [0]] 5).1
    (by decide)

/-- C10.  With `weak < strong` and a positive `weight_power`: whenever the
sparse waveform contains a value strictly above the weak threshold inside
the window, the weight sum of `spike_sample_aligned` is nonzero and the
aligned time lies in `[s_min, s_max)`; when no value exceeds the weak
threshold every weight is 0 and the denominator is the zero sum (the
floating-point division then yields NaN, modelled here by the vanishing
denominator). -/
theorem C10_aligned_time_well_defined (tw ts : ℚ) (p : ℕ)
    (wave : ℕ → ℕ → ℚ) (sMin sMax nc : ℕ)
    (htw : tw < ts) (hp : 1 ≤ p) :
    ((∃ i < sMax - sMin, ∃ c < nc, tw < wave i c) →
      spikeDen tw ts p wave (sMax - sMin) nc ≠ 0 ∧
      (sMin : ℚ) ≤ spikeSampleAligned tw ts p wave sMin sMax nc ∧
      spikeSampleAligned tw ts p wave sMin sMax nc < sMax) ∧
    ((∀ i < sMax - sMin, ∀ c < nc, wave i c ≤ tw) →
      spikeDen tw ts p wave (sMax - sMin) nc = 0) := by
  constructor
  · rintro ⟨i₀, hi₀, c₀, hc₀, hgt⟩
    have hn1 : 1 ≤ sMax - sMin := by omega
    have hterm_nonneg : ∀ i c, (0:ℚ) ≤ spikeW tw ts p wave i c := fun i c =>
      pow_nonneg (normalize_nonneg _ _ _) p
    have hden : 0 < spikeDen tw ts p wave (sMax - sMin) nc := by
      apply Finset.sum_pos'
      · intro i _
        exact Finset.sum_nonneg fun c _ => hterm_nonneg i c
      · refine ⟨i₀, Finset.mem_range.2 hi₀, ?_⟩
        apply Finset.sum_pos'
        · intro c _
          exact hterm_nonneg i₀ c
        · refine ⟨c₀, Finset.mem_range.2 hc₀, ?_⟩
          exact pow_pos (normalize_pos htw hgt) p
    have hnum_nonneg : 0 ≤ spikeNum tw ts p wave (sMax - sMin) nc := by
      apply Finset.sum_nonneg
      intro i _
      apply Finset.sum_nonneg
      intro c _
      exact mul_nonneg (hterm_nonneg i c) (Nat.cast_nonneg i)
    have hnum_le : spikeNum tw ts p wave (sMax - sMin) nc ≤
        spikeDen tw ts p wave (sMax - sMin) nc * ((sMax - sMin : ℕ) - 1 : ℚ) := by
      unfold spikeNum spikeDen
      rw [Finset.sum_mul]
      apply Finset.sum_le_sum
      intro i hi
      rw [Finset.sum_mul]
      apply Finset.sum_le_sum
      intro c _
      apply mul_le_mul_of_nonneg_left _ (hterm_nonneg i c)
      have hile : (i : ℚ) + 1 ≤ ((sMax - sMin : ℕ) : ℚ) := by
        exact_mod_cast Nat.succ_le_of_lt (Finset.mem_range.1 hi)
      linarith
    refine ⟨ne_of_gt hden, ?_, ?_⟩
    · unfold spikeSampleAligned
      have := div_nonneg hnum_nonneg hden.le
      linarith
    · unfold spikeSampleAligned
      have hdiv : spikeNum tw ts p wave (sMax - sMin) nc /
          spikeDen tw ts p wave (sMax - sMin) nc ≤ ((sMax - sMin : ℕ) - 1 : ℚ) := by
        rw [div_le_iff₀ hden, mul_comm]
        exact hnum_le
      have hcast : ((sMax - sMin : ℕ) : ℚ) = (sMax : ℚ) - (sMin : ℚ) := by
        have : sMin ≤ sMax := by omega
        push_cast [Nat.cast_sub this]
        ring
      rw [hcast] at hdiv
      linarith
  · intro hall
    unfold spikeDen
    apply Finset.sum_eq_zero
    intro i hi
    apply Finset.sum_eq_zero
    intro c hc
    unfold spikeW
    rw [normalize_eq_zero htw (hall i (Finset.mem_range.1 hi) c (Finset.mem_range.1 hc))]
    exact zero_pow (by omega)

/-- Witness for C10: the component `{(5,0), (6,0)}` with `data_t[s,c] = s`,
`weak = 1`, `strong = 2`, `weight_power = 1`, window `[2, 10)`. -/
theorem C10_aligned_time_well_defined_witness :
    spikeDen 1 2 1 (compWave (fun s _ => (s : ℚ)) [(5, 0), (6, 0)] 2) (10 - 2) 1 ≠ 0 ∧
    ((2 : ℕ) : ℚ) ≤ spikeSampleAligned 1 2 1
        (compWave (fun s _ => (s : ℚ)) [(5, 0), (6, 0)] 2) 2 10 1 ∧
    spikeSampleAligned 1 2 1
        (compWave (fun s _ => (s : ℚ)) [(5, 0), (6, 0)] 2) 2 10 1 < ((10 : ℕ) : ℚ) :=
  (C10_aligned_time_well_defined 1 2 1
      (compWave (fun s _ => (s : ℚ)) [(5, 0), (6, 0)] 2) 2 10 1
      (by norm_num) (le_refl 1)).1
    ⟨3, by norm_num, 0, by norm_num, by
      simp only [compWave]
      norm_num⟩

/-- C2.  For every component whose samples all lie inside the trace and
whose filtered-trace amplitude reaches the strong threshold on every member
channel (each member channel carries a component point whose filtered value
is at or above `strong`), the mask returned by `masks` is all-ones — one
value `1` per member channel.  Thresholds satisfy `weak < strong` and
`0 < strong` (amplitude thresholds are positive; with a nonpositive strong
threshold the argmax of the sparse waveform could land on an untouched,
zero-valued cell). -/
theorem C2_strong_masks_all_ones (tw ts : ℚ) (dataT : ℕ → ℕ → ℚ)
    (comp : List (ℕ × ℕ)) (nSamples : ℕ) (channels : List ℕ)
    (htw : tw < ts) (hts : 0 < ts)
    (hin : ∀ q ∈ comp, q.1 < nSamples)
    (hch : ∀ c ∈ channels, ∃ s, (s, c) ∈ comp ∧ ts ≤ dataT s c) :
    masksOf tw ts dataT (compWave dataT comp (sMinOf comp))
        (compChannels comp) (sMinOf comp)
        (sMaxOf comp nSamples - sMinOf comp) channels =
      List.replicate channels.length 1 := by
  apply map_eq_replicate_one
  intro c hc
  obtain ⟨s₀, hmem, hge⟩ := hch c hc
  have hmin : sMinOf comp ≤ s₀ :=
    le_trans (Nat.sub_le _ 3) (sampMin_le (p := (s₀, c)) hmem)
  have hsmax : s₀ < sMaxOf comp nSamples := by
    have h1 : s₀ ≤ sampMax comp := le_sampMax (p := (s₀, c)) hmem
    have h2 : s₀ < nSamples := hin (s₀, c) hmem
    unfold sMaxOf
    omega
  have hi₀ : s₀ - sMinOf comp < sMaxOf comp nSamples - sMinOf comp := by
    omega
  have hwave₀ : compWave dataT comp (sMinOf comp) (s₀ - sMinOf comp) c
      = dataT s₀ c := by
    unfold compWave
    rw [Nat.sub_add_cancel hmin, if_pos hmem]
  set n := sMaxOf comp nSamples - sMinOf comp with hn
  set r := argmaxCol (compWave dataT comp (sMinOf comp)) n c with hr
  have hrge : ts ≤ compWave dataT comp (sMinOf comp) r c := by
    have := argmaxCol_le (compWave dataT comp (sMinOf comp)) n c hi₀
    rw [hwave₀] at this
    exact le_trans hge this
  have hrmem : (r + sMinOf comp, c) ∈ comp := by
    by_contra hnot
    have : compWave dataT comp (sMinOf comp) r c = 0 := by
      unfold compWave
      rw [if_neg hnot]
    rw [this] at hrge
    linarith
  have hrdata : dataT (r + sMinOf comp) c
      = compWave dataT comp (sMinOf comp) r c := by
    unfold compWave
    rw [if_pos hrmem]
  have hbin : c ∈ compChannels comp :=
    List.mem_map.2 ⟨(s₀, c), hmem, rfl⟩
  have hpeak : peaksValue dataT (compWave dataT comp (sMinOf comp))
      (compChannels comp) (sMinOf comp) n c = dataT (r + sMinOf comp) c := by
    unfold peaksValue
    rw [← hr, if_pos hbin, mul_one]
  rw [hpeak, hrdata]
  exact normalize_eq_one htw hrge

/-- Witness for C2: the single-point component `(5, 0)` with constant
filtered amplitude 3, thresholds `weak = 1 < strong = 2`, member channels
`[0]`, trace length 10 — the mask is `[1]`. -/
theorem C2_strong_masks_all_ones_witness :
    masksOf 1 2 (fun _ _ => 3) (compWave (fun _ _ => 3) [(5, 0)] (sMinOf [(5, 0)]))
        (compChannels [(5, 0)]) (sMinOf [(5, 0)])
        (sMaxOf [(5, 0)] 10 - sMinOf [(5, 0)]) [0] =
      List.replicate ([0] : List ℕ).length 1 :=
  C2_strong_masks_all_ones 1 2 (fun _ _ => 3) [(5, 0)] 10 [0]
    (by norm_num) (by norm_num) (by decide)
    (by
      intro c hc
      simp only [List.mem_singleton] at hc
      subst hc
      exact ⟨5, List.mem_singleton.2 rfl, by norm_num⟩)

/-- C8, counterexample.  A loader whose traces were never set and with no
channel subset fails with the `AttributeError` from `n_channels_traces`
while computing the batch shape — it does not return the all-zero batch. -/
theorem C8_counterexample :
    getItem ⟨[], 0, none, 0, none, 0, 0, 1, 1, none, none, none⟩
      (fun _ _ _ => 0) [3] = .error .attrError := rfl

/-- C8, amended.  For every batch request to a loader whose trace buffer is
empty or unset, *provided the output channel count is determinable* (a
channel subset is configured, or the traces setter has run at least once),
the call returns an all-zero batch of the requested shape
`(n_requested, window_length, n_output_channels)` without error; when the
buffer was never set and no channel subset is configured, the shape
computation instead fails with an attribute error. -/
theorem C8_empty_traces_zero_batch (L : WaveformLoaderS)
    (junk : ℕ → ℕ → ℕ → ℚ) (times : List ℤ) (ncw : ℕ)
    (h0 : L.nSamplesTrace = 0) (hncw : nChannelsWaveforms L = .ok ncw) :
    getItem L junk times =
      .ok ⟨times.map (fun _ => zeroMat (nSamplesWaveforms L) ncw), []⟩ ∧
    (times.map (fun _ => zeroMat (nSamplesWaveforms L) ncw)).length
      = times.length := by
  constructor
  · unfold getItem
    rw [hncw, h0]
    simp
  · exact List.length_map times _

/-- Witness for C8: an unset buffer with channel subset `[0, 1]` yields two
all-zero `2 × 2` waveforms. -/
theorem C8_empty_traces_zero_batch_witness :
    getItem ⟨[], 0, none, 0, none, 0, 0, 1, 1, some [0, 1], none, none⟩
        (fun _ _ _ => 0) [5, 7] =
      .ok ⟨[5, 7].map (fun _ =>
        zeroMat (nSamplesWaveforms
          ⟨[], 0, none, 0, none, 0, 0, 1, 1, some [0, 1], none, none⟩) 2), []⟩ ∧
    ([5, 7].map (fun (_ : ℤ) =>
        zeroMat (nSamplesWaveforms
          ⟨[], 0, none, 0, none, 0, 0, 1, 1, some [0, 1], none, none⟩) 2)).length
      = [5, 7].length :=
  C8_empty_traces_zero_batch _ (fun _ _ _ => 0) [5, 7] 2 rfl rfl

/-! ### Support lemmas for the batch loader -/

theorem isOkE_exists {ε α : Type} (e : Except ε α) (h : isOkE e = true) :
    ∃ a, e = .ok a := by
  cases e with
  | ok a => exact ⟨a, rfl⟩
  | error err => exact absurd h (by simp [isOkE])

theorem loadAt_invalid (L : WaveformLoaderS) (t : ℤ)
    (h : t - L.offset < 0 ∨ (L.nSamplesTrace : ℤ) ≤ t - L.offset) :
    loadAt L t = .error (.invalidTime (t - L.offset) L.nSamplesTrace) := by
  unfold loadAt
  rw [if_pos h]

theorem checkShape_ok {nsw ncw : ℕ} {out wv : List (List ℚ)}
    (h : checkShape nsw ncw out = .ok wv) :
    wv.length = nsw ∧ ∀ row ∈ wv, row.length = ncw := by
  unfold checkShape at h
  split at h
  · rename_i hc
    cases h
    refine ⟨hc.1, ?_⟩
    intro row hrow
    exact of_decide_eq_true (List.all_eq_true.1 hc.2 row hrow)
  · cases h

theorem loadPost_ok {L : WaveformLoaderS} {e wv : List (List ℚ)} {ncw : ℕ}
    (hncw : nChannelsWaveforms L = .ok ncw)
    (h : loadPost L e = .ok wv) :
    wv.length = nSamplesWaveforms L ∧ ∀ row ∈ wv, row.length = ncw := by
  unfold loadPost at h
  rw [hncw] at h
  exact checkShape_ok h

theorem loadAt_ok_shape (L : WaveformLoaderS) (t : ℤ)
    {wv : List (List ℚ)} {ncw : ℕ}
    (hncw : nChannelsWaveforms L = .ok ncw)
    (h : loadAt L t = .ok wv) :
    wv.length = nSamplesWaveforms L ∧ ∀ row ∈ wv, row.length = ncw := by
  unfold loadAt at h
  by_cases hval : t - L.offset < 0 ∨ (L.nSamplesTrace : ℤ) ≤ t - L.offset
  · rw [if_pos hval] at h
    cases h
  · rw [if_neg hval] at h
    by_cases hel : (loadExtract L (t - L.offset)).length = nSamplesExtract L
    · rw [if_pos hel] at h
      exact loadPost_ok hncw h
    · rw [if_neg hel] at h
      cases h

theorem junkMat_shape (nsw ncw : ℕ) (junk : ℕ → ℕ → ℚ) :
    (junkMat nsw ncw junk).length = nsw ∧
    ∀ row ∈ junkMat nsw ncw junk, row.length = ncw := by
  constructor
  · simp [junkMat]
  · intro row hrow
    simp only [junkMat, List.mem_map] at hrow
    obtain ⟨r, _, rfl⟩ := hrow
    simp

theorem postprocMat_shape (L : WaveformLoaderS) {m : List (List ℚ)} {b : ℕ}
    (h2 : ∀ row ∈ m, row.length = b) :
    (postprocMat L m).length = m.length ∧
    ∀ row ∈ postprocMat L m, row.length = b := by
  simp only [postprocMat]
  split_ifs with hd hs hs
  · refine ⟨by simp, ?_⟩
    intro row hrow
    simp only [List.mem_map] at hrow
    obtain ⟨r1, ⟨r0, hr0, rfl⟩, rfl⟩ := hrow
    simp [h2 r0 hr0]
  · refine ⟨by simp, ?_⟩
    intro row hrow
    simp only [List.mem_map] at hrow
    obtain ⟨r0, hr0, rfl⟩ := hrow
    simp [h2 r0 hr0]
  · refine ⟨by simp, ?_⟩
    intro row hrow
    simp only [List.mem_map] at hrow
    obtain ⟨r0, hr0, rfl⟩ := hrow
    simp [h2 r0 hr0]
  · exact ⟨rfl, h2⟩

theorem getD_map_lt {α β : Type} (f : α → β) (l : List α) (i : ℕ)
    (d : β) (d' : α) (h : i < l.length) :
    (l.map f).getD i d = f (l.getD i d') := by
  induction l generalizing i with
  | nil => cases h
  | cons a l ih =>
    cases i with
    | zero => rfl
    | succ n =>
      simp only [List.map_cons, List.getD_cons_succ]
      exact ih n (by simpa using h)

theorem loadSlots_spec (L : WaveformLoaderS) (junk : ℕ → ℕ → ℕ → ℚ)
    (ncw : ℕ) (hncw : nChannelsWaveforms L = .ok ncw) :
    ∀ (times : List ℤ) (i : ℕ),
      (∀ t ∈ times, 0 ≤ t - L.offset → t - L.offset < (L.nSamplesTrace : ℤ) →
        isOkE (loadAt L t) = true) →
      ∃ ws warns,
        loadSlots L junk (nSamplesWaveforms L) ncw i times = .ok (ws, warns) ∧
        ws.length = times.length ∧
        (∀ m ∈ ws, m.length = nSamplesWaveforms L ∧ ∀ row ∈ m, row.length = ncw) ∧
        (∀ j (hj : j < times.length),
          0 ≤ times.get ⟨j, hj⟩ - L.offset →
          times.get ⟨j, hj⟩ - L.offset < (L.nSamplesTrace : ℤ) →
          ∃ wv, loadAt L (times.get ⟨j, hj⟩) = .ok wv ∧ ws.getD j [] = wv) ∧
        (∀ j (hj : j < times.length),
          (times.get ⟨j, hj⟩ - L.offset < 0 ∨
            (L.nSamplesTrace : ℤ) ≤ times.get ⟨j, hj⟩ - L.offset) →
          (times.get ⟨j, hj⟩ - L.offset) ∈ warns) := by
  intro times
  induction times with
  | nil =>
    intro i _
    refine ⟨[], [], rfl, rfl, ?_, ?_, ?_⟩
    · intro m hm
      cases hm
    · intro j hj
      exact absurd hj (by simp)
    · intro j hj
      exact absurd hj (by simp)
  | cons t rest ih =>
    intro i hok
    obtain ⟨ws, warns, hls, hlen, hshape, hvalid, hinvalid⟩ :=
      ih (i + 1) (fun t' ht' => hok t' (List.mem_cons_of_mem t ht'))
    by_cases hv : 0 ≤ t - L.offset ∧ t - L.offset < (L.nSamplesTrace : ℤ)
    · obtain ⟨wv, hwv⟩ :=
        isOkE_exists _ (hok t (List.mem_cons_self t rest) hv.1 hv.2)
      refine ⟨wv :: ws, warns, ?_, by simp [hlen], ?_, ?_, ?_⟩
      · unfold loadSlots
        rw [hwv, hls]
      · intro m hm
        rcases List.mem_cons.1 hm with rfl | hm'
        · exact loadAt_ok_shape L t hncw hwv
        · exact hshape m hm'
      · intro j hj h1 h2
        cases j with
        | zero => exact ⟨wv, hwv, rfl⟩
        | succ n =>
          exact hvalid n (by simpa using hj) h1 h2
      · intro j hj hbad
        cases j with
        | zero =>
          exfalso
          have hget : (t :: rest).get ⟨0, hj⟩ = t := rfl
          rw [hget] at hbad
          omega
        | succ n =>
          exact hinvalid n (by simpa using hj) hbad
    · have hv' : t - L.offset < 0 ∨ (L.nSamplesTrace : ℤ) ≤ t - L.offset := by
        omega
      have hload := loadAt_invalid L t hv'
      refine ⟨junkMat (nSamplesWaveforms L) ncw (junk i) :: ws,
        (t - L.offset) :: warns, ?_, by simp [hlen], ?_, ?_, ?_⟩
      · unfold loadSlots
        rw [hload, hls]
      · intro m hm
        rcases List.mem_cons.1 hm with rfl | hm'
        · exact junkMat_shape _ _ _
        · exact hshape m hm'
      · intro j hj h1 h2
        cases j with
        | zero => exact absurd (And.intro h1 h2) hv
        | succ n =>
          exact hvalid n (by simpa using hj) h1 h2
      · intro j hj hbad
        cases j with
        | zero => exact List.mem_cons_self _ _
        | succ n =>
          exact List.mem_cons_of_mem _ (hinvalid n (by simpa using hj) hbad)

/-- C7.  For every batch request containing a time outside the valid range
(offset-translated `[0, buffer_length)`), with a nonempty trace buffer, a
determinable output channel count, and all in-range entries loadable:
the batch call does not raise — it returns a result whose waveform array
has the full requested shape `(n_requested, window_length,
n_output_channels)`, a warning recording the invalid entry's translated
time is logged, and every valid entry's slot holds its loaded (and
post-processed) waveform; the invalid slot keeps unspecified contents. -/
theorem C7_invalid_time_batch (L : WaveformLoaderS) (junk : ℕ → ℕ → ℕ → ℚ)
    (times : List ℤ) (t0 : ℤ) (ncw : ℕ)
    (hns : 0 < L.nSamplesTrace)
    (hncw : nChannelsWaveforms L = .ok ncw)
    (hok : ∀ t ∈ times, 0 ≤ t - L.offset → t - L.offset < (L.nSamplesTrace : ℤ) →
      isOkE (loadAt L t) = true)
    (ht0 : t0 ∈ times)
    (hinv : t0 - L.offset < 0 ∨ (L.nSamplesTrace : ℤ) ≤ t0 - L.offset) :
    ∃ res, getItem L junk times = .ok res ∧
      res.waveforms.length = times.length ∧
      (t0 - L.offset) ∈ res.warnings ∧
      (∀ m ∈ res.waveforms, m.length = nSamplesWaveforms L ∧
        ∀ row ∈ m, row.length = ncw) ∧
      (∀ i (hi : i < times.length),
        0 ≤ times.get ⟨i, hi⟩ - L.offset →
        times.get ⟨i, hi⟩ - L.offset < (L.nSamplesTrace : ℤ) →
        ∃ wv, loadAt L (times.get ⟨i, hi⟩) = .ok wv ∧
          res.waveforms.getD i [] = postprocMat L wv) := by
  obtain ⟨ws, warns, hls, hlen, hshape, hvalid, hinvalid⟩ :=
    loadSlots_spec L junk ncw hncw times 0 hok
  refine ⟨⟨ws.map (postprocMat L), warns⟩, ?_, ?_, ?_, ?_, ?_⟩
  · unfold getItem
    rw [hncw]
    dsimp only
    rw [if_neg (by omega), hls]
  · simp [hlen]
  · obtain ⟨⟨j, hj⟩, hget⟩ := List.get_of_mem ht0
    have := hinvalid j hj (by rw [hget]; exact hinv)
    rw [hget] at this
    exact this
  · intro m hm
    simp only [List.mem_map] at hm
    obtain ⟨m₀, hm₀, rfl⟩ := hm
    obtain ⟨hlen₀, hrow₀⟩ := hshape m₀ hm₀
    obtain ⟨hplen, hprow⟩ := postprocMat_shape L hrow₀
    exact ⟨hplen.trans hlen₀, hprow⟩
  · intro i hi h1 h2
    obtain ⟨wv, hwv, hgd⟩ := hvalid i hi h1 h2
    refine ⟨wv, hwv, ?_⟩
    rw [getD_map_lt _ _ _ _ [] (by omega), hgd]

/-- Witness for C7: loading times `[-5, 1]` from a 3-sample single-channel
buffer — slot 0 is invalid and warned about, slot 1 loads. -/
theorem C7_invalid_time_batch_witness :
    ∃ res, getItem ⟨[[1], [2], [3]], 3, some 1, 0, none, 0, 0, 1, 1,
        none, none, none⟩ (fun _ _ _ => 9) [-5, 1] = .ok res ∧
      res.waveforms.length = ([-5, 1] : List ℤ).length ∧
      ((-5 : ℤ) - 0) ∈ res.warnings ∧
      (∀ m ∈ res.waveforms, m.length = nSamplesWaveforms
          ⟨[[1], [2], [3]], 3, some 1, 0, none, 0, 0, 1, 1, none, none, none⟩ ∧
        ∀ row ∈ m, row.length = 1) ∧
      (∀ i (hi : i < ([-5, 1] : List ℤ).length),
        0 ≤ ([-5, 1] : List ℤ).get ⟨i, hi⟩ - 0 →
        ([-5, 1] : List ℤ).get ⟨i, hi⟩ - 0 < ((3 : ℕ) : ℤ) →
        ∃ wv, loadAt ⟨[[1], [2], [3]], 3, some 1, 0, none, 0, 0, 1, 1,
            none, none, none⟩ (([-5, 1] : List ℤ).get ⟨i, hi⟩) = .ok wv ∧
          res.waveforms.getD i [] = postprocMat ⟨[[1], [2], [3]], 3, some 1, 0,
            none, 0, 0, 1, 1, none, none, none⟩ wv) :=
  C7_invalid_time_batch ⟨[[1], [2], [3]], 3, some 1, 0, none, 0, 0, 1, 1,
      none, none, none⟩ (fun _ _ _ => 9) [-5, 1] (-5) 1
    (by norm_num) rfl (by decide) (by decide) (by decide)

end Klusta
